import Mathlib

/-!
Verification of the hibp-index on-disk key index against its specification.

Byte strings are modelled as lists of naturals holding values below 256;
all arithmetic is on Nat/Int with masks written explicitly, exactly as the
source performs it on machine integers.  Fallible operations return Option
or Except; a Rust panic (out-of-range slice index, failed expect) is
modelled as a dedicated outcome so that it can never be confused with a
normal return.
-/

set_option maxRecDepth 4000

/-- Bitwise complement of a byte value, as the u8 not-operator computes it. -/
def byteNot (x : Nat) : Nat := 255 ^^^ x

/-- Lexicographic comparison of byte lists, as slice cmp performs it. -/
def cmpBytes : List Nat → List Nat → Ordering
  | [], [] => .eq
  | [], _ :: _ => .lt
  | _ :: _, [] => .gt
  | a :: as_, b :: bs => if a < b then .lt else if b < a then .gt else cmpBytes as_ bs

/-- Big-endian interpretation of a byte list as a natural number. -/
def beBytesToNat (bs : List Nat) : Nat := bs.foldl (fun acc b => acc * 256 + b) 0

/-- Big-endian encoding of a natural into a fixed number of bytes
(the to_be_bytes of the corresponding machine integer). -/
def natToBeBytes (w n : Nat) : List Nat :=
  match w with
  | 0 => []
  | w + 1 => natToBeBytes w (n / 256) ++ [n % 256]

/-! ### data/prefix.rs: bit-level key splitting

Embeds Prefix::new_from_raw, Suffix::new_from_suffix_raw / new_from_key and
Prefix::unsplit.  A key type D is a fixed byte array; its length is carried
as an explicit parameter.  Unused bytes of a default key are zero. -/

/-- Prefix::new_from_raw from data/prefix.rs: copy the first ceil(bits/8)
bytes into a zeroed key of length len and clear the unused low bits of the
last copied byte. -/
def prefixNewFromRaw (len : Nat) (raw : List Nat) (bits : Nat) : List Nat :=
  let octets := (bits + 7) / 8
  let base := raw.take octets ++ List.replicate (len - octets) 0
  let needBits := bits % 8
  if needBits ≠ 0 then
    base.set (octets - 1) ((base.getD (octets - 1) 0) &&& byteNot (255 >>> needBits))
  else
    base

/-- Prefix::new_from_key: extract the bits-bit prefix of a full key. -/
def prefixOfKey (k : List Nat) (bits : Nat) : List Nat :=
  prefixNewFromRaw k.length k bits

/-- Suffix::new_from_suffix_raw from data/prefix.rs: place raw at byte
offset bits/8 of a zeroed key and clear the top bits mod 8 bits of the
shared byte. -/
def suffixNewFromSuffixRaw (pbits : Nat) (raw : List Nat) : List Nat :=
  let start := pbits / 8
  let base := List.replicate start 0 ++ raw
  let truncateBits := pbits % 8
  if truncateBits ≠ 0 then
    base.set start ((base.getD start 0) &&& (255 >>> truncateBits))
  else
    base

/-- Suffix::new_from_key: extract the suffix of a key after a pbits-bit
prefix. -/
def suffixOfKey (k : List Nat) (pbits : Nat) : List Nat :=
  suffixNewFromSuffixRaw pbits (k.drop (pbits / 8))

/-- Prefix::unsplit from data/prefix.rs.  The source clones the prefix key,
copies the suffix bytes after the shared byte and ors the shared byte:
key_data with index start = bits/8.  Indexing key_data at start (and
slicing at start+1) panics when start is not below the key length; the
panic is modelled as none. -/
def dataUnsplit (bits : Nat) (pk sk : List Nat) : Option (List Nat) :=
  let start := bits / 8
  if start < pk.length ∧ pk.length = sk.length then
    some (pk.take start ++ ((pk.getD start 0) ||| (sk.getD start 0)) :: sk.drop (start + 1))
  else
    none


/-! ### Helper lemmas about getD, take and drop on appended lists -/

theorem getD_append_lt (l1 l2 : List Nat) (i : Nat) (h : i < l1.length) :
    (l1 ++ l2).getD i 0 = l1.getD i 0 := by
  simp [List.getD_eq_getElem?_getD, List.getElem?_append_left h]

theorem getD_append_at (l1 l2 : List Nat) (i : Nat) (h : l1.length = i) :
    (l1 ++ l2).getD i 0 = l2.getD 0 0 := by
  subst h
  simp [List.getD_eq_getElem?_getD, List.getElem?_append_right (Nat.le_refl l1.length)]

theorem getD_eq_getElem_of_lt (l : List Nat) (i : Nat) (h : i < l.length) : l.getD i 0 = l[i] := by
  rw [List.getD_eq_getElem?_getD, List.getElem?_eq_getElem h]
  rfl

theorem drop_append_at_add (l1 l2 : List Nat) (i j : Nat) (h : l1.length = i) :
    (l1 ++ l2).drop (i + j) = l2.drop j := by
  subst h
  simp [List.drop_append]

theorem byteMaskSplit : ∀ r, r < 8 → ∀ x, x < 256 →
    ((x &&& byteNot (255 >>> r)) ||| (x &&& (255 >>> r))) = x := by decide

/-- Bit-split round trip for every split position strictly inside the key:
recombining the n-bit prefix with the matching suffix restores the key when
n is less than the full bit length. -/
theorem dataUnsplit_roundtrip_below_full (k : List Nat) (hb : ∀ b ∈ k, b < 256) (n : Nat)
    (hn : n < 8 * k.length) :
    dataUnsplit n (prefixOfKey k n) (suffixOfKey k n) = some k := by
  have hsL : n / 8 < k.length := by omega
  have hks256 : k[n / 8] < 256 := hb _ (List.getElem_mem hsL)
  have htk : (k.take (n / 8)).length = n / 8 := by simp; omega
  have hrepl : (List.replicate (n / 8) (0 : Nat)).length = n / 8 := by simp
  by_cases hr : n % 8 = 0
  · -- no shared partial byte: the prefix ends exactly at byte n/8
    have hoct : (n + 7) / 8 = n / 8 := by omega
    have hpk : prefixOfKey k n = k.take (n / 8) ++ List.replicate (k.length - n / 8) 0 := by
      simp [prefixOfKey, prefixNewFromRaw, hoct, hr]
    have hsk : suffixOfKey k n = List.replicate (n / 8) 0 ++ k.drop (n / 8) := by
      simp [suffixOfKey, suffixNewFromSuffixRaw, hr]
    rw [dataUnsplit, hpk, hsk]
    have hlen1 : (k.take (n / 8) ++ List.replicate (k.length - n / 8) 0).length = k.length := by
      simp; omega
    have hlen2 : (List.replicate (n / 8) 0 ++ k.drop (n / 8)).length = k.length := by
      simp; omega
    rw [if_pos (by rw [hlen1, hlen2]; exact ⟨hsL, rfl⟩)]
    have e1 : (k.take (n / 8) ++ List.replicate (k.length - n / 8) 0).take (n / 8) =
        k.take (n / 8) := by
      rw [List.take_append_of_le_length (by omega), List.take_take]
      simp
    have e2 : (k.take (n / 8) ++ List.replicate (k.length - n / 8) 0).getD (n / 8) 0 = 0 := by
      rw [getD_append_at _ _ _ htk, getD_eq_getElem_of_lt _ _ (by simp; omega)]
      simp
    have e3 : (List.replicate (n / 8) 0 ++ k.drop (n / 8)).getD (n / 8) 0 = k[n / 8] := by
      rw [getD_append_at _ _ _ hrepl, getD_eq_getElem_of_lt _ _ (by simp; omega),
        List.getElem_drop]
      simp
    have e4 : (List.replicate (n / 8) 0 ++ k.drop (n / 8)).drop (n / 8 + 1) = k.drop (n / 8 + 1) := by
      rw [drop_append_at_add _ _ _ 1 hrepl, List.drop_drop]
    rw [e1, e2, e3, e4, Nat.zero_or, ← List.drop_eq_getElem_cons hsL, List.take_append_drop]
  · -- the byte at n/8 is shared between prefix and suffix
    have hoct : (n + 7) / 8 = n / 8 + 1 := by omega
    have htk1 : (k.take (n / 8 + 1)).length = n / 8 + 1 := by simp; omega
    have hb1 : (k.take (n / 8 + 1) ++ List.replicate (k.length - (n / 8 + 1)) 0).getD (n / 8) 0 =
        k[n / 8] := by
      rw [getD_append_lt _ _ _ (by omega), getD_eq_getElem_of_lt _ _ (by omega)]
      rw [List.getElem_take]
    have hb1len : (k.take (n / 8 + 1) ++ List.replicate (k.length - (n / 8 + 1)) 0).length =
        k.length := by simp; omega
    have hbt : (k.take (n / 8 + 1) ++ List.replicate (k.length - (n / 8 + 1)) 0).take (n / 8) =
        k.take (n / 8) := by
      rw [List.take_append_of_le_length (by omega), List.take_take]
      simp
    have hbd : (k.take (n / 8 + 1) ++ List.replicate (k.length - (n / 8 + 1)) 0).drop (n / 8 + 1) =
        List.replicate (k.length - (n / 8 + 1)) 0 := by
      rw [drop_append_at_add _ _ _ 0 htk1]
      rfl
    have hpk : prefixOfKey k n =
        k.take (n / 8) ++ (k[n / 8] &&& byteNot (255 >>> (n % 8))) ::
          List.replicate (k.length - (n / 8 + 1)) 0 := by
      rw [prefixOfKey, prefixNewFromRaw]
      simp only [hoct, if_pos hr, Nat.add_sub_cancel]
      rw [hb1, List.set_eq_take_cons_drop _ (by rw [hb1len]; omega), hbt, hbd]
    have hb2 : (List.replicate (n / 8) 0 ++ k.drop (n / 8)).getD (n / 8) 0 = k[n / 8] := by
      rw [getD_append_at _ _ _ hrepl, getD_eq_getElem_of_lt _ _ (by simp; omega),
        List.getElem_drop]
      simp
    have hb2len : (List.replicate (n / 8) 0 ++ k.drop (n / 8)).length = k.length := by
      simp; omega
    have hct : (List.replicate (n / 8) 0 ++ k.drop (n / 8)).take (n / 8) =
        List.replicate (n / 8) 0 := by
      rw [List.take_append_of_le_length (by simp), List.take_replicate]
      simp
    have hcd : (List.replicate (n / 8) 0 ++ k.drop (n / 8)).drop (n / 8 + 1) =
        k.drop (n / 8 + 1) := by
      rw [drop_append_at_add _ _ _ 1 hrepl, List.drop_drop]
    have hsk : suffixOfKey k n =
        List.replicate (n / 8) 0 ++ (k[n / 8] &&& (255 >>> (n % 8))) :: k.drop (n / 8 + 1) := by
      rw [suffixOfKey, suffixNewFromSuffixRaw]
      simp only [if_pos hr]
      rw [hb2, List.set_eq_take_cons_drop _ (by rw [hb2len]; omega), hct, hcd]
    rw [dataUnsplit, hpk, hsk]
    have hlen1 : (k.take (n / 8) ++ (k[n / 8] &&& byteNot (255 >>> (n % 8))) ::
        List.replicate (k.length - (n / 8 + 1)) 0).length = k.length := by
      simp; omega
    have hlen2 : (List.replicate (n / 8) 0 ++ (k[n / 8] &&& (255 >>> (n % 8))) ::
        k.drop (n / 8 + 1)).length = k.length := by
      simp; omega
    rw [if_pos (by rw [hlen1, hlen2]; exact ⟨hsL, rfl⟩)]
    have e1 : (k.take (n / 8) ++ (k[n / 8] &&& byteNot (255 >>> (n % 8))) ::
        List.replicate (k.length - (n / 8 + 1)) 0).take (n / 8) = k.take (n / 8) := by
      rw [List.take_append_of_le_length (by omega), List.take_take]
      simp
    have e2 : (k.take (n / 8) ++ (k[n / 8] &&& byteNot (255 >>> (n % 8))) ::
        List.replicate (k.length - (n / 8 + 1)) 0).getD (n / 8) 0 =
        k[n / 8] &&& byteNot (255 >>> (n % 8)) := by
      rw [getD_append_at _ _ _ htk]
      rfl
    have e3 : (List.replicate (n / 8) 0 ++ (k[n / 8] &&& (255 >>> (n % 8))) ::
        k.drop (n / 8 + 1)).getD (n / 8) 0 = k[n / 8] &&& (255 >>> (n % 8)) := by
      rw [getD_append_at _ _ _ hrepl]
      rfl
    have e4 : (List.replicate (n / 8) 0 ++ (k[n / 8] &&& (255 >>> (n % 8))) ::
        k.drop (n / 8 + 1)).drop (n / 8 + 1) = k.drop (n / 8 + 1) := by
      rw [drop_append_at_add _ _ _ 1 hrepl]
      rfl
    rw [e1, e2, e3, e4, byteMaskSplit (n % 8) (by omega) k[n / 8] hks256,
      ← List.drop_eq_getElem_cons hsL, List.take_append_drop]

/-- C3: the bit-split round-trip claim fails at the boundary n = 8 times the
key length.  For the two-byte key 0xABCD and n = 16, Prefix::unsplit indexes
the shared byte at position bits / 8 = 2, which is out of range, so the call
panics (modelled as none) instead of returning the key. -/
theorem c3_unsplit_panics_at_full_bit_length :
    dataUnsplit 16 (prefixOfKey [171, 205] 16) (suffixOfKey [171, 205] 16) = none := by decide

/-! ### index/depth.rs and index/prefix.rs: bucket indexing

The bucket index of a key is the big-endian u32 made of its first four
bytes (zero padded), masked to the top depth bits and shifted right.
Positions are counted from the start of the entry region; the real file
adds the constant header size to every stream position and to every table
offset alike, which cancels in all reads. -/

/-- The u32 value of the first four key bytes, zero padded, big endian. -/
def keyU32 (key : List Nat) : Nat :=
  let t := key.take 4
  beBytesToNat (t ++ List.replicate (4 - t.length) 0)

/-- The u32 mask keeping the top d bits: the source shifts the all-ones u32
left by 32 - d, wrapping in 32 bits. -/
def depthMask (d : Nat) : Nat := ((2 ^ 32 - 1) <<< (32 - d)) % 2 ^ 32

/-- LimPrefix::new followed by LimPrefix::index: the bucket number of a key
at depth d (zero when d is zero). -/
def bucketIndex (d : Nat) (key : List Nat) : Nat :=
  if d = 0 then 0 else ((keyU32 key) &&& depthMask d) >>> (32 - d)

/-- LimPrefix::index for a stored raw u32 prefix value. -/
def pfxIndex (d raw : Nat) : Nat :=
  if d = 0 then 0 else raw >>> (32 - d)

/-- LimPrefix::set_key_prefix: write the d-bit prefix raw back over the key
bytes, keeping the low bits of the shared byte. -/
def setKeyPfx (d raw : Nat) (key : List Nat) : List Nat :=
  let rawBytes := natToBeBytes 4 raw
  let fpb := d / 8
  let key1 := rawBytes.take fpb ++ key.drop fpb
  let pb := d % 8
  if pb ≠ 0 then
    key1.set fpb
      (((key1.getD fpb 0) &&& (255 >>> pb)) ||| ((rawBytes.getD fpb 0) &&& byteNot (255 >>> pb)))
  else
    key1

/-! ### index/key_suffix.rs: stripped key comparison -/

/-- KeySuffix: first (masked, possibly shared) byte plus the remaining
suffix bytes of a key after dropping depth/8 whole bytes. -/
structure KeySfx where
  firstByte : Nat
  rest : List Nat
  deriving DecidableEq, Repr

/-- KeySuffix::new: strip depth/8 whole bytes and clear the top depth mod 8
bits of the first remaining byte. -/
def keySfxOfKey (d : Nat) (key : List Nat) : KeySfx :=
  let sfx := key.drop (d / 8)
  ⟨(sfx.getD 0 0) &&& (255 >>> (d % 8)), sfx.drop 1⟩

/-- KeySuffix::new_from_entry: an on-disk entry key is already stripped;
only mask its first byte. -/
def keySfxFromEntry (d : Nat) (entryKey : List Nat) : KeySfx :=
  ⟨(entryKey.getD 0 0) &&& (255 >>> (d % 8)), entryKey.drop 1⟩

/-- PartialOrd on KeySuffix: incomparable (the expect in compare_entry
panics) when the suffix lengths differ; both sides always carry the same
depth in compare_entry, so only the length test remains. -/
def keySfxPartialCmp (a b : KeySfx) : Option Ordering :=
  if a.rest.length = b.rest.length then
    some ((compare a.firstByte b.firstByte).then (cmpBytes a.rest b.rest))
  else
    none

/-! ### index/table.rs: the streaming table builder -/

/-- Bytes written for one key by TableBuilder::write_key: the masked first
suffix byte followed by the remaining suffix bytes. -/
def entryKeyBytes (d : Nat) (key : List Nat) : List Nat :=
  let sfx := key.drop (d / 8)
  ((sfx.getD 0 0) &&& (255 >>> (d % 8))) :: sfx.drop 1

/-- Vec::resize on the offsets vector: truncate or extend with value v. -/
def tableResize (l : List Nat) (target v : Nat) : List Nat :=
  l.take target ++ List.replicate (target - l.length) v

/-- Builder state: the offsets vector, the current stream position and the
entry stream written so far. -/
structure BuildState where
  offsets : List Nat
  pos : Nat
  stream : List Nat
  deriving Repr

/-- Builder::add_entry: TableBuilder::fill_index resizes the offsets vector
to bucket+1 entries filled with the current position, then write_key and
the payload bytes are appended to the stream. -/
def builderAddEntry (d : Nat) (st : BuildState) (key payload : List Nat) : BuildState :=
  let ndx := bucketIndex d key
  let offsets :=
    if st.offsets.length ≠ ndx + 1 then tableResize st.offsets (ndx + 1) st.pos else st.offsets
  let bytes := entryKeyBytes d key ++ payload
  ⟨offsets, st.pos + bytes.length, st.stream ++ bytes⟩

/-- TableBuilder::close: pad the offsets vector to 2^d + 1 slots with the
final stream position.  Returns the entry stream and the offsets table. -/
def builderFinish (d : Nat) (st : BuildState) : List Nat × List Nat :=
  (st.stream, tableResize st.offsets (2 ^ d + 1) st.pos)

/-- Build an index from a list of (key, payload) entries added in order. -/
def buildIndex (d : Nat) (entries : List (List Nat × List Nat)) : List Nat × List Nat :=
  builderFinish d (entries.foldl (fun st e => builderAddEntry d st e.1 e.2) ⟨[], 0, []⟩)

/-! ### index/table_helper.rs: forward search over one bucket -/

/-- ForwardSearch from table_helper.rs: the stripped search key plus the
key_len field, which the source sets to the FULL key length. -/
structure FwdSearch where
  sfx : KeySfx
  keyLen : Nat
  depth : Nat

/-- ForwardSearch::new stores the stripped suffix and key.len(). -/
def fwdSearchNew (d : Nat) (key : List Nat) : FwdSearch :=
  ⟨keySfxOfKey d key, key.length, d⟩

/-- Result of testing one entry or one reconstituted key. -/
inductive FwdRes
  | found (payload : List Nat)
  | next
  | stop
  deriving DecidableEq, Repr

/-- ForwardSearch::test_entry: split the entry at key_len (split_at panics
when the entry is shorter, modelled as none), then compare via KeySuffix;
an incomparable pair hits the expect and panics (none).  Greater means the
search key is still ahead of the entry (continue), Less means the file
entry is already past it (break). -/
def testEntry (fs : FwdSearch) (entry : List Nat) : Option FwdRes :=
  if fs.keyLen ≤ entry.length then
    match keySfxPartialCmp fs.sfx (keySfxFromEntry fs.depth (entry.take fs.keyLen)) with
    | some .eq => some (.found (entry.drop fs.keyLen))
    | some .gt => some .next
    | some .lt => some .stop
    | none => none
  else
    none

/-- ForwardRangeSearch: the query prefix split into whole bytes, a masked
final byte and the mask for that byte. -/
structure FwdRangeSearch where
  pfxBytes : List Nat
  pfxEnd : Nat
  maskEndBits : Nat

/-- ForwardRangeSearch::new from table_helper.rs. -/
def fwdRangeSearchNew (key : List Nat) (keyBits : Nat) : FwdRangeSearch :=
  if keyBits = 0 then ⟨[], 0, 0⟩
  else
    let lenClipped := keyBits / 8
    let pb := keyBits % 8
    if pb ≠ 0 then
      ⟨key.take lenClipped, (key.getD lenClipped 0) &&& byteNot (255 >>> pb), byteNot (255 >>> pb)⟩
    else
      ⟨key.take (lenClipped - 1), key.getD (lenClipped - 1) 0, 255⟩

/-- ForwardRangeSearch::test_key on a full reconstituted key. -/
def testKey (f : FwdRangeSearch) (key : List Nat) : FwdRes :=
  match (cmpBytes f.pfxBytes (key.take f.pfxBytes.length)).then
      (compare f.pfxEnd ((key.getD f.pfxBytes.length 0) &&& f.maskEndBits)) with
  | .eq => .found key
  | .gt => .next
  | .lt => .stop

/-! ### index/reader.rs: point lookup -/

/-- BufReader::read_exact: consume n bytes at pos, an IO error (none) when
the stream is too short. -/
def readExact (stream : List Nat) (pos n : Nat) : Option (List Nat) :=
  if pos + n ≤ stream.length then some ((stream.drop pos).take n) else none

inductive LookupErr
  | ioError
  | invalidSegmentLength
  deriving DecidableEq, Repr

/-- Outcome of one lookup: a normal return, a typed error, or a panic. -/
inductive LookupOutcome
  | ok (payload : Option (List Nat))
  | err (e : LookupErr)
  | panicked
  deriving DecidableEq, Repr

/-- The loop of IndexLookup::sync_lookup: up to fuel = num_entries
iterations, each reading one entry of entrySize bytes and testing it.
Returns the outcome together with the number of entries read. -/
def syncLookupGo (fs : FwdSearch) (stream : List Nat) (entrySize : Nat) :
    Nat → Nat → LookupOutcome × Nat
  | _, 0 => (.ok none, 0)
  | pos, fuel + 1 =>
    match readExact stream pos entrySize with
    | none => (.err .ioError, 0)
    | some entry =>
      match testEntry fs entry with
      | none => (.panicked, 1)
      | some (.found data) => (.ok (some data), 1)
      | some .stop => (.ok none, 1)
      | some .next =>
        let r := syncLookupGo fs stream entrySize (pos + entrySize) fuel
        (r.1, r.2 + 1)

/-- IndexLookup::new plus sync_lookup over the byte range from start to
endp: entry_size = keySize - d/8 + paySize; a range length that is not a
multiple of the entry size yields InvalidSegmentLength before any read. -/
def lookupInRange (d keySize paySize : Nat) (stream key : List Nat) (start endp : Nat) :
    LookupOutcome × Nat :=
  let entrySize := keySize - d / 8 + paySize
  let length := endp - start
  if length % entrySize ≠ 0 then (.err .invalidSegmentLength, 0)
  else syncLookupGo (fwdSearchNew d key) stream entrySize start (length / entrySize)

/-- Full point lookup: the byte range of the bucket of the key is read from
the offsets table, then scanned forward. -/
def indexLookup (d : Nat) (offsets : List Nat) (keySize paySize : Nat) (stream key : List Nat) :
    LookupOutcome × Nat :=
  let b := bucketIndex d key
  lookupInRange d keySize paySize stream key (offsets.getD b 0) (offsets.getD (b + 1) 0)

/-- The payload copy at the end of sync_lookup: p_len = min of the caller
buffer length and the entry payload length; the first p_len bytes are
copied, the rest of the buffer is untouched. -/
def syncLookupPayloadCopy (buf data : List Nat) : List Nat :=
  let pLen := min buf.length data.length
  data.take pLen ++ buf.drop pLen

/-! ### index/reader.rs: prefix-range walk

The LimPrefixRange iterator yields the unshifted raw u32 prefix values
first, first+step, ... while the value stays at most last, stopping also
when the u32 checked_add overflows; since every yielded value is at most
last and last is below 2^32, the enumeration is exactly the arithmetic
progression of values at most last. -/

/-- The values yielded by LimPrefixRange as a list. -/
def rawRangeEnum (first last step : Nat) : List Nat :=
  if first > last then []
  else (List.range ((last - first) / step + 1)).map (fun i => first + i * step)

/-- LimPrefixRange::new from index/prefix.rs. -/
def limPfxRangeRaws (d : Nat) (key : List Nat) (keyBits : Nat) : List Nat :=
  if d = 0 then rawRangeEnum 0 0 1
  else
    let mask := depthMask d
    let step := 1 <<< (32 - d)
    if keyBits = 0 then rawRangeEnum 0 mask step
    else
      let ndx := (keyU32 key) &&& mask
      if keyBits < d then
        let keyMask := ((2 ^ 32 - 1) <<< (32 - keyBits)) % 2 ^ 32
        let ndx2 := ndx &&& keyMask
        rawRangeEnum ndx2 (ndx2 ||| (mask &&& ((2 ^ 32 - 1) ^^^ keyMask))) step
      else
        rawRangeEnum ndx ndx step

/-- State of IndexWalk between two sync_walk results: stream position, the
prefixes not yet loaded, and the active prefix with its remaining entry
count. -/
structure WalkSt where
  pos : Nat
  raws : List Nat
  cur : Option (Nat × Nat)
  deriving DecidableEq, Repr

/-- One sync_walk step result. -/
inductive WalkStep
  | yielded (key payload : List Nat) (st : WalkSt)
  | finished
  | failed (e : LookupErr) (st : WalkSt)
  | fuelOut
  deriving DecidableEq, Repr

/-- IndexWalk::sync_walk from reader.rs.  With an active prefix and entries
remaining it reads a FULL key buffer of keySize bytes and then the payload,
decrements the count, overwrites the prefix bits and tests the key; with no
active prefix it loads the next one from the range, seeks to its table
range and checks the segment length. -/
def syncWalkGo (d keySize paySize : Nat) (offsets stream : List Nat) (frs : FwdRangeSearch) :
    WalkSt → Nat → WalkStep
  | _, 0 => .fuelOut
  | st, fuel + 1 =>
    match st.cur with
    | some (raw, num + 1) =>
      match readExact stream st.pos keySize with
      | none => .failed .ioError ⟨st.pos, st.raws, some (raw, num)⟩
      | some keyRead =>
        match readExact stream (st.pos + keySize) paySize with
        | none => .failed .ioError ⟨st.pos, st.raws, some (raw, num)⟩
        | some payload =>
          let pos2 := st.pos + keySize + paySize
          let fullKey := setKeyPfx d raw keyRead
          match testKey frs fullKey with
          | .found _ => .yielded fullKey payload ⟨pos2, st.raws, some (raw, num)⟩
          | .next => syncWalkGo d keySize paySize offsets stream frs ⟨pos2, st.raws, some (raw, num)⟩ fuel
          | .stop => .finished
    | some (_, 0) => syncWalkGo d keySize paySize offsets stream frs ⟨st.pos, st.raws, none⟩ fuel
    | none =>
      match st.raws with
      | [] => .finished
      | raw :: rest =>
        let idx := pfxIndex d raw
        let start := offsets.getD idx 0
        let endp := offsets.getD (idx + 1) 0
        let entrySize := keySize - d / 8 + paySize
        if (endp - start) % entrySize ≠ 0 then .failed .invalidSegmentLength ⟨start, rest, none⟩
        else syncWalkGo d keySize paySize offsets stream frs
          ⟨start, rest, some (raw, (endp - start) / entrySize)⟩ fuel

/-- The first item produced by lookup_range: sync_walk from the fresh
IndexWalk state. -/
def syncWalkFirst (d keySize paySize : Nat) (offsets stream key : List Nat) (keyBits : Nat) :
    WalkStep :=
  let raws := limPfxRangeRaws d key keyBits
  syncWalkGo d keySize paySize offsets stream (fwdRangeSearchNew key keyBits)
    ⟨0, raws, none⟩ ((raws.length + 1) * (stream.length + 4))

/-- The key of a yielded walk step, when there is one. -/
def walkStepKey : WalkStep → Option (List Nat)
  | .yielded k _ _ => some k
  | _ => none

/-! ### Claims C1, C2, C6 -/

theorem syncLookupGo_reads_le (fs : FwdSearch) (stream : List Nat) (es : Nat) :
    ∀ fuel pos, (syncLookupGo fs stream es pos fuel).2 ≤ fuel := by
  intro fuel
  induction fuel with
  | zero =>
    intro pos
    simp [syncLookupGo]
  | succ n ih =>
    intro pos
    simp only [syncLookupGo]
    split
    · simp
    · split
      · simp
      · simp
      · simp
      · simpa using Nat.succ_le_succ (ih (pos + es))

theorem syncLookupGo_not_seg_err (fs : FwdSearch) (stream : List Nat) (es : Nat) :
    ∀ fuel pos, (syncLookupGo fs stream es pos fuel).1 ≠ .err .invalidSegmentLength := by
  intro fuel
  induction fuel with
  | zero =>
    intro pos
    simp [syncLookupGo]
  | succ n ih =>
    intro pos
    simp only [syncLookupGo]
    split
    · simp
    · split
      · simp
      · simp
      · simp
      · simpa using ih (pos + es)

/-- C6: with entry_size = keySize - d/8 + paySize and the byte range from
start to endp, lookup returns InvalidSegmentLength exactly when the range
length is not a multiple of the entry size, and otherwise reads at most
(endp - start) / entry_size entries before returning. -/
theorem c6_segment_check_and_bounded_scan (d keySize paySize : Nat) (stream key : List Nat)
    (start endp : Nat) (hks : d / 8 < keySize) :
    ((lookupInRange d keySize paySize stream key start endp).1 = .err .invalidSegmentLength ↔
      (endp - start) % (keySize - d / 8 + paySize) ≠ 0) ∧
    (lookupInRange d keySize paySize stream key start endp).2 ≤
      (endp - start) / (keySize - d / 8 + paySize) := by
  unfold lookupInRange
  by_cases hm : (endp - start) % (keySize - d / 8 + paySize) ≠ 0
  · simp only [if_pos hm]
    exact ⟨by simp [hm], by simp⟩
  · simp only [if_neg hm]
    constructor
    · constructor
      · intro h
        exact absurd h (syncLookupGo_not_seg_err _ _ _ _ _)
      · intro h
        exact absurd h hm
    · exact syncLookupGo_reads_le _ _ _ _ _

/-- Witness for C6 at a concrete input. -/
theorem c6_segment_check_and_bounded_scan_witness :
    ((lookupInRange 0 1 0 [9, 9] [5] 0 2).1 = .err .invalidSegmentLength ↔
      (2 - 0) % (1 - 0 / 8 + 0) ≠ 0) ∧
    (lookupInRange 0 1 0 [9, 9] [5] 0 2).2 ≤ (2 - 0) / (1 - 0 / 8 + 0) :=
  c6_segment_check_and_bounded_scan 0 1 0 [9, 9] [5] 0 2 (by decide)

/-- The index built at depth 8 over the two keys 0x0102 and 0x0103 with
empty payloads; entries are stripped of their first byte, so the entry
stream is the two bytes 0x02 0x03 and bucket 1 covers the byte range from
0 to 2. -/
def exBuild8 : List Nat × List Nat := buildIndex 8 [([1, 2], []), ([1, 3], [])]

/-- C1: the build and point lookup round trip fails at depth 8.  Looking up
the stored key 0x0102 panics: ForwardSearch::test_entry splits each 1-byte
stored entry at key_len = 2 (the full key length instead of the stripped
suffix length), so the claimed Some result is never produced. -/
theorem c1_point_lookup_panics_at_depth_8 :
    (indexLookup 8 exBuild8.2 2 0 exBuild8.1 [1, 2]).1 = .panicked ∧
    ∀ p, (indexLookup 8 exBuild8.2 2 0 exBuild8.1 [1, 2]).1 ≠ .ok (some p) := by
  have h : (indexLookup 8 exBuild8.2 2 0 exBuild8.1 [1, 2]).1 = .panicked := by decide
  refine ⟨h, fun p => ?_⟩
  rw [h]
  simp

/-- C2: prefix enumeration fails at depth 8.  On the same index the first
item yielded by lookup_range with query 0x01 and 8 query bits has key
0x0103: sync_walk reads a full 2-byte key per entry although stored entries
hold only 1 stripped byte, consuming both entries as one key, while the
claim requires the entries 0x0102 then 0x0103 in ascending order. -/
theorem c2_first_walk_item_wrong_at_depth_8 :
    walkStepKey (syncWalkFirst 8 2 0 exBuild8.2 exBuild8.1 [1, 0] 8) = some [1, 3] ∧
    ([1, 3] : List Nat) ≠ [1, 2] := by
  constructor
  · decide
  · decide

/-! ### index/table.rs: Table::open over the decompressed table stream

The trailer locates the compressed blob; Table::open validates the content
of the DEFLATE-decompressed stream, which is modelled directly: one depth
byte followed by (2^depth + 1) big-endian u64 offsets and nothing else. -/

inductive TableReadErr
  | ioError
  | invalidDepth (depth : Nat)
  | tooMuchTableData
  | invalidTableOffsets
  deriving DecidableEq, Repr

/-- read_u64_into: read count big-endian u64 values, an IO error (none)
when the stream runs out. -/
def readU64s : Nat → List Nat → Option (List Nat × List Nat)
  | 0, bs => some ([], bs)
  | n + 1, bs =>
    if 8 ≤ bs.length then
      match readU64s n (bs.drop 8) with
      | some (vs, rest) => some (beBytesToNat (bs.take 8) :: vs, rest)
      | none => none
    else
      none

/-- The offsets check loop of Table::open: scan adjacent pairs, failing on
the first pair with file_offsets at i greater than at i+1. -/
def offsetsNondecr : List Nat → Bool
  | a :: b :: rest => if a > b then false else offsetsNondecr (b :: rest)
  | _ => true

/-- Table::open on the decompressed stream: depth byte at most 24, exactly
2^depth + 1 offsets, no trailing byte, offsets non-decreasing. -/
def tableOpenStream (stream : List Nat) : Except TableReadErr (Nat × List Nat) :=
  match stream with
  | [] => .error .ioError
  | d :: rest =>
    if 24 < d then .error (.invalidDepth d)
    else
      match readU64s (2 ^ d + 1) rest with
      | none => .error .ioError
      | some (offs, rest2) =>
        if rest2.length ≠ 0 then .error .tooMuchTableData
        else if offsetsNondecr offs then .ok (d, offs)
        else .error .invalidTableOffsets

/-- The u64 offset number i of the raw offsets byte region. -/
def decodeOffAt (bs : List Nat) (i : Nat) : Nat := beBytesToNat ((bs.drop (8 * i)).take 8)


theorem readU64s_eq_of_le (n : Nat) : ∀ bs : List Nat, 8 * n ≤ bs.length →
    readU64s n bs = some ((List.range n).map (decodeOffAt bs), bs.drop (8 * n)) := by
  induction n with
  | zero =>
    intro bs h
    simp [readU64s, decodeOffAt]
  | succ m ih =>
    intro bs h
    have h8 : 8 ≤ bs.length := by omega
    rw [readU64s, if_pos h8, ih (bs.drop 8) (by simp; omega)]
    have hfun : ∀ a ∈ List.range m, (decodeOffAt bs ∘ Nat.succ) a = decodeOffAt (bs.drop 8) a := by
      intro i _
      simp only [Function.comp_apply, decodeOffAt, List.drop_drop]
      rw [show (8 : Nat) + 8 * i = 8 * (i + 1) by omega]
    have hmap : (List.range (m + 1)).map (decodeOffAt bs) =
        beBytesToNat (bs.take 8) :: (List.range m).map (decodeOffAt (bs.drop 8)) := by
      rw [List.range_succ_eq_map, List.map_cons, List.map_map, List.map_congr_left hfun]
      congr 1
    rw [hmap]
    have hdd : (bs.drop 8).drop (8 * m) = bs.drop (8 * (m + 1)) := by
      rw [List.drop_drop]
      congr 1
      omega
    rw [hdd]

theorem readU64s_none_of_lt (n : Nat) : ∀ bs : List Nat, bs.length < 8 * n →
    readU64s n bs = none := by
  induction n with
  | zero =>
    intro bs h
    omega
  | succ m ih =>
    intro bs h
    rw [readU64s]
    by_cases h8 : 8 ≤ bs.length
    · rw [if_pos h8, ih (bs.drop 8) (by simp; omega)]
    · rw [if_neg h8]

theorem offsetsNondecr_iff : ∀ l : List Nat,
    offsetsNondecr l = true ↔ ∀ i, i + 1 < l.length → l.getD i 0 ≤ l.getD (i + 1) 0
  | [] => by
    refine ⟨fun _ i hi => ?_, fun _ => rfl⟩
    simp only [List.length_nil] at hi
    omega
  | [a] => by
    refine ⟨fun _ i hi => ?_, fun _ => rfl⟩
    simp only [List.length_cons, List.length_nil] at hi
    omega
  | a :: b :: rest => by
    rw [offsetsNondecr]
    by_cases hab : a > b
    · rw [if_pos hab]
      constructor
      · intro h
        exact absurd h (by simp)
      · intro h
        have h0 := h 0 (by simp)
        simp only [List.getD_cons_zero, List.getD_cons_succ] at h0
        exact absurd h0 (by omega)
    · rw [if_neg hab]
      rw [offsetsNondecr_iff (b :: rest)]
      constructor
      · intro h i hi
        cases i with
        | zero =>
          simp
          omega
        | succ j =>
          have := h j (by simp at hi ⊢; omega)
          simpa using this
      · intro h i hi
        have := h (i + 1) (by simp at hi ⊢; omega)
        simpa using this

theorem getD_map_range (f : Nat → Nat) (N i : Nat) (h : i < N) :
    ((List.range N).map f).getD i 0 = f i := by
  rw [getD_eq_getElem_of_lt _ _ (by simpa using h)]
  simp




theorem tableOpenStream_ok_inv (stream : List Nat) (t : Nat × List Nat)
    (h : tableOpenStream stream = .ok t) :
    ∃ d rest, stream = d :: rest ∧ d ≤ 24 ∧ rest.length = 8 * (2 ^ d + 1) ∧
      offsetsNondecr ((List.range (2 ^ d + 1)).map (decodeOffAt rest)) = true ∧
      t = (d, (List.range (2 ^ d + 1)).map (decodeOffAt rest)) := by
  match stream with
  | [] => exact Except.noConfusion h
  | d :: rest =>
    refine ⟨d, rest, rfl, ?_⟩
    simp only [tableOpenStream] at h
    by_cases hd : 24 < d
    · rw [if_pos hd] at h
      exact Except.noConfusion h
    · rw [if_neg hd] at h
      by_cases hlt : rest.length < 8 * (2 ^ d + 1)
      · rw [readU64s_none_of_lt _ _ hlt] at h
        exact Except.noConfusion h
      · rw [readU64s_eq_of_le _ _ (by omega)] at h
        split at h
        · exact Except.noConfusion h
        · rename_i offs rest2 heq
          injection heq with hpair
          obtain ⟨rfl, rfl⟩ := Prod.mk.inj hpair.symm
          split at h
          · exact Except.noConfusion h
          · rename_i hne
            have hlen0 : rest.length = 8 * (2 ^ d + 1) := by
              have hz : (rest.drop (8 * (2 ^ d + 1))).length = 0 := by
                by_contra hc
                exact hne hc
              simp only [List.length_drop] at hz
              omega
            split at h
            · rename_i hmono
              exact ⟨by omega, hlen0, hmono, (Except.ok.inj h).symm⟩
            · exact Except.noConfusion h

theorem tableOpenStream_eval (d : Nat) (rest : List Nat) (hd : d ≤ 24)
    (hlen : 8 * (2 ^ d + 1) ≤ rest.length) :
    tableOpenStream (d :: rest) =
      if (rest.drop (8 * (2 ^ d + 1))).length ≠ 0 then .error .tooMuchTableData
      else if offsetsNondecr ((List.range (2 ^ d + 1)).map (decodeOffAt rest)) then
        .ok (d, (List.range (2 ^ d + 1)).map (decodeOffAt rest))
      else .error .invalidTableOffsets := by
  simp only [tableOpenStream]
  rw [if_neg (by omega), readU64s_eq_of_le _ rest hlen]

theorem offsetsNondecr_map_iff (rest : List Nat) (d : Nat) :
    offsetsNondecr ((List.range (2 ^ d + 1)).map (decodeOffAt rest)) = true ↔
      ∀ i, i < 2 ^ d → decodeOffAt rest i ≤ decodeOffAt rest (i + 1) := by
  rw [offsetsNondecr_iff]
  constructor
  · intro h i hi
    have hx := h i (by simp; omega)
    rwa [getD_map_range _ _ _ (by omega), getD_map_range _ _ _ (by omega)] at hx
  · intro h i hi
    simp only [List.length_map, List.length_range] at hi
    rw [getD_map_range _ _ _ (by omega), getD_map_range _ _ _ (by omega)]
    exact h i (by omega)

/-- C4: Table::open validation on the decompressed table stream: a depth
byte above 24 yields InvalidDepth; with a valid depth, any byte beyond the
2^D + 1 big-endian u64 offsets yields TooMuchTableData; with exactly the
right length, a decreasing adjacent offset pair yields InvalidTableOffsets;
and the parse succeeds, returning the decoded offsets, exactly when none of
these (nor a too-short stream, the IO error) occurs. -/
theorem c4_table_open_validation (stream : List Nat) :
    (∀ d rest, stream = d :: rest → 24 < d →
      tableOpenStream stream = .error (.invalidDepth d)) ∧
    (∀ d rest, stream = d :: rest → d ≤ 24 → 8 * (2 ^ d + 1) < rest.length →
      tableOpenStream stream = .error .tooMuchTableData) ∧
    (∀ d rest, stream = d :: rest → d ≤ 24 → rest.length = 8 * (2 ^ d + 1) →
      (∃ i, i < 2 ^ d ∧ decodeOffAt rest (i + 1) < decodeOffAt rest i) →
      tableOpenStream stream = .error .invalidTableOffsets) ∧
    ((∃ t, tableOpenStream stream = .ok t) ↔
      (∃ d rest, stream = d :: rest ∧ d ≤ 24 ∧ rest.length = 8 * (2 ^ d + 1) ∧
        ∀ i, i < 2 ^ d → decodeOffAt rest i ≤ decodeOffAt rest (i + 1))) ∧
    (∀ d rest offs, stream = d :: rest → tableOpenStream stream = .ok (d, offs) →
      offs = (List.range (2 ^ d + 1)).map (decodeOffAt rest)) := by
  refine ⟨?_, ?_, ?_, ?_, ?_⟩
  · rintro d rest rfl hd24
    simp only [tableOpenStream]
    rw [if_pos hd24]
  · rintro d rest rfl hd hlt
    rw [tableOpenStream_eval d rest hd (by omega), if_pos (by simp; omega)]
  · rintro d rest rfl hd hlen ⟨i, hi, hbad⟩
    rw [tableOpenStream_eval d rest hd (by omega), if_neg (by simp; omega),
      if_neg (fun hall => absurd ((offsetsNondecr_map_iff rest d).mp hall i hi) (by omega))]
  · constructor
    · rintro ⟨t, ht⟩
      obtain ⟨d, rest, rfl, hd, hlen, hmono, _⟩ := tableOpenStream_ok_inv _ _ ht
      exact ⟨d, rest, rfl, hd, hlen, (offsetsNondecr_map_iff rest d).mp hmono⟩
    · rintro ⟨d, rest, rfl, hd, hlen, hmono⟩
      refine ⟨(d, (List.range (2 ^ d + 1)).map (decodeOffAt rest)), ?_⟩
      rw [tableOpenStream_eval d rest hd (by omega), if_neg (by simp; omega),
        if_pos ((offsetsNondecr_map_iff rest d).mpr hmono)]
  · rintro d rest offs rfl hok
    obtain ⟨d2, rest2, heq, _, _, _, ht⟩ := tableOpenStream_ok_inv _ _ hok
    injection heq with h1 h2
    subst h1
    subst h2
    exact (Prod.mk.inj ht).2

/-- Witness for C4 at concrete streams, one per error arm and one success. -/
theorem c4_table_open_validation_witness :
    tableOpenStream [25] = .error (.invalidDepth 25) ∧
    tableOpenStream (0 :: List.replicate 17 0) = .error .tooMuchTableData ∧
    tableOpenStream (0 :: ([0, 0, 0, 0, 0, 0, 0, 1] ++ List.replicate 8 0)) =
      .error .invalidTableOffsets ∧
    (∃ t, tableOpenStream (0 :: List.replicate 16 0) = .ok t) := by
  refine ⟨?_, ?_, ?_, ?_⟩
  · exact (c4_table_open_validation [25]).1 25 [] rfl (by decide)
  · exact (c4_table_open_validation _).2.1 0 (List.replicate 17 0) rfl (by decide) (by decide)
  · exact (c4_table_open_validation _).2.2.1 0 _ rfl (by decide) (by decide)
      ⟨0, by decide, by decide⟩
  · exact ((c4_table_open_validation _).2.2.2.1).mpr
      ⟨0, List.replicate 16 0, rfl, by decide, by decide, by decide⟩

/-! ### index/builder.rs: Builder::create -/

inductive BuilderCreateErr
  | ioError
  | invalidDescription
  | invalidKeyLength
  | headerTooBig
  deriving DecidableEq, Repr

/-- The bytes of the magic line hash-index-v0. -/
def indexV0Magic : List Nat := [104, 97, 115, 104, 45, 105, 110, 100, 101, 120, 45, 118, 48]

/-- Builder::create from index/builder.rs: the key-size and depth checks,
the newline check on the description, then the header bytes are written and
their total length is checked against the 4096-byte header limit.  keySize
is the key_bytes_length of the content type and name its header name. -/
def builderCreate (keySize : Nat) (name desc : List Nat) (paySize depth : Nat) :
    Except BuilderCreateErr (List Nat) :=
  if keySize = 0 then .error .invalidKeyLength
  else if depth / 8 + 1 > keySize then .error .invalidKeyLength
  else if 24 < depth then .error .invalidKeyLength
  else if 10 ∈ desc then .error .invalidDescription
  else
    let header := indexV0Magic ++ [10] ++ name ++ [10] ++ desc ++ [10] ++ [keySize, paySize]
    if 4096 < header.length then .error .headerTooBig
    else .ok header

/-- C5: Builder::create returns InvalidKeyLength exactly when the key size
is zero, smaller than depth/8 + 1, or the depth exceeds 24; with those
checks passed it returns InvalidDescription exactly when the description
holds a newline byte; then HeaderTooBig exactly when the written header
exceeds 4096 bytes; and otherwise succeeds after writing the fixed header:
magic line, key-type line, description line, then the two size bytes. -/
theorem c5_builder_create_errors (keySize : Nat) (name desc : List Nat) (paySize depth : Nat) :
    (builderCreate keySize name desc paySize depth = .error .invalidKeyLength ↔
      keySize = 0 ∨ keySize < depth / 8 + 1 ∨ 24 < depth) ∧
    (keySize ≠ 0 → depth / 8 + 1 ≤ keySize → depth ≤ 24 →
      (builderCreate keySize name desc paySize depth = .error .invalidDescription ↔
        10 ∈ desc)) ∧
    (keySize ≠ 0 → depth / 8 + 1 ≤ keySize → depth ≤ 24 → 10 ∉ desc →
      (builderCreate keySize name desc paySize depth = .error .headerTooBig ↔
        4096 < 18 + name.length + desc.length)) ∧
    (keySize ≠ 0 → depth / 8 + 1 ≤ keySize → depth ≤ 24 → 10 ∉ desc →
      18 + name.length + desc.length ≤ 4096 →
      builderCreate keySize name desc paySize depth =
        .ok (indexV0Magic ++ [10] ++ name ++ [10] ++ desc ++ [10] ++ [keySize, paySize])) := by
  simp only [builderCreate]
  split_ifs with h1 h2 h3 h4 h5 <;>
    refine ⟨?_, ?_, ?_, ?_⟩ <;>
    simp_all [indexV0Magic] <;>
    omega

/-- Witness for C5: a successful create with the SHA-1 name, empty
description, no payload and depth 20 produces the exact header bytes. -/
theorem c5_builder_create_errors_witness :
    builderCreate 20 [83, 72, 65, 45, 49] [] 0 20 =
      .ok (indexV0Magic ++ [10] ++ [83, 72, 65, 45, 49] ++ [10] ++ [] ++ [10] ++ [20, 0]) :=
  (c5_builder_create_errors 20 [83, 72, 65, 45, 49] [] 0 20).2.2.2
    (by decide) (by decide) (by decide) (by decide) (by decide)

/-! ### index/typed_reader.rs: TypedIndex -/

inductive IndexOpenErr
  | ioError
  | keyTypeError
  | tableReadError
  | invalidKeyLength
  | invalidHeader
  deriving DecidableEq, Repr

/-- TypedIndex::new: the file key type must equal the expected key type and
the file key size the expected key size; the file payload size must be at
least the payload type size P::SIZE.  All three failures use
InvalidKeyLength. -/
def typedIndexNew (ktFile ktExp : String) (keySizeFile keySizeExp paySizeFile pSize : Nat) :
    Except IndexOpenErr Unit :=
  if ktFile ≠ ktExp then .error .invalidKeyLength
  else if keySizeFile ≠ keySizeExp then .error .invalidKeyLength
  else if paySizeFile < pSize then .error .invalidKeyLength
  else .ok ()

/-- The payload copy in TypedIndex::lookup_range: the P::SIZE byte buffer
receives full_payload up to P::SIZE; the slicing panics (none) when the
stored payload is shorter. -/
def walkPayloadCopy (pSize : Nat) (fullPayload : List Nat) : Option (List Nat) :=
  if pSize ≤ fullPayload.length then some (fullPayload.take pSize) else none

/-- C9: with matching key type and key size, opening a typed index succeeds
exactly when the recorded payload size is at least P::SIZE, and fails with
InvalidKeyLength exactly when it is strictly smaller; both lookup paths
then hand back only the first P::SIZE stored payload bytes: sync_lookup
copies min of buffer and payload length bytes into the P::SIZE buffer, and
lookup_range copies the P::SIZE byte front of the stored payload. -/
theorem c9_payload_oversize_tolerated_and_truncated
    (ktFile : String) (keySizeFile paySizeFile pSize : Nat) (buf data : List Nat) :
    (typedIndexNew ktFile ktFile keySizeFile keySizeFile paySizeFile pSize = .ok () ↔
      pSize ≤ paySizeFile) ∧
    (typedIndexNew ktFile ktFile keySizeFile keySizeFile paySizeFile pSize =
      .error .invalidKeyLength ↔ paySizeFile < pSize) ∧
    (buf.length = pSize → pSize ≤ data.length →
      syncLookupPayloadCopy buf data = data.take pSize) ∧
    (pSize ≤ data.length → walkPayloadCopy pSize data = some (data.take pSize)) := by
  have hne1 : ¬ (ktFile ≠ ktFile) := by simp
  have hne2 : ¬ (keySizeFile ≠ keySizeFile) := by simp
  refine ⟨?_, ?_, ?_, ?_⟩
  · rw [typedIndexNew, if_neg hne1, if_neg hne2]
    by_cases h : paySizeFile < pSize
    · rw [if_pos h]
      simp
      omega
    · rw [if_neg h]
      simp
      omega
  · rw [typedIndexNew, if_neg hne1, if_neg hne2]
    by_cases h : paySizeFile < pSize
    · rw [if_pos h]
      simp
      omega
    · rw [if_neg h]
      simp
      omega
  · intro h1 h2
    simp only [syncLookupPayloadCopy]
    rw [show min buf.length data.length = pSize by omega]
    rw [List.drop_eq_nil_of_le (by omega), List.append_nil]
  · intro h
    simp [walkPayloadCopy, h]

/-- Witness for C9: a file payload size of 3 with P::SIZE 2 opens and both
copies return the two front payload bytes. -/
theorem c9_payload_oversize_tolerated_and_truncated_witness :
    (typedIndexNew "SHA-1" "SHA-1" 20 20 3 2 = .ok () ↔ 2 ≤ 3) ∧
    (typedIndexNew "SHA-1" "SHA-1" 20 20 3 2 = .error .invalidKeyLength ↔ 3 < 2) ∧
    ([0, 0].length = 2 → 2 ≤ [7, 8, 9].length →
      syncLookupPayloadCopy [0, 0] [7, 8, 9] = [7, 8, 9].take 2) ∧
    (2 ≤ [7, 8, 9].length → walkPayloadCopy 2 [7, 8, 9] = some ([7, 8, 9].take 2)) :=
  c9_payload_oversize_tolerated_and_truncated "SHA-1" 20 3 2 [0, 0] [7, 8, 9]

/-! ### buf_read/mod.rs: BufReader::seek -/

/-- The largest u64 value. -/
def U64MAX : Nat := 2 ^ 64 - 1

/-- The smallest i64 value. -/
def I64MIN : Int := -(2 ^ 63)

inductive IoErrKind
  | other
  deriving DecidableEq, Repr

structure IoErr where
  kind : IoErrKind
  msg : String
  deriving DecidableEq, Repr

inductive SeekFromM
  | start (n : Nat)
  | current (off : Int)
  | fromEnd (off : Int)
  deriving DecidableEq, Repr

/-- The SeekFrom::Current arm of BufReader::seek: checked_add for a
non-negative offset (failing with position overflow), otherwise
checked_abs, whose expect panics on i64::MIN (modelled none), then
checked_sub (failing with position (negative) overflow).  The position is
assigned only on success. -/
def bufSeekCurrent (pos : Nat) (off : Int) : Option (Nat × Except IoErr Nat) :=
  if 0 ≤ off then
    if pos + off.toNat ≤ U64MAX then some (pos + off.toNat, .ok (pos + off.toNat))
    else some (pos, .error ⟨.other, "position overflow"⟩)
  else
    if off = I64MIN then none
    else
      if off.natAbs ≤ pos then some (pos - off.natAbs, .ok (pos - off.natAbs))
      else some (pos, .error ⟨.other, "position (negative) overflow"⟩)

/-- BufReader::seek: Start assigns the position, Current delegates to the
checked arithmetic, End seeks to file_len then Current, restoring the
original position on error.  The returned pair is the position after the
call and the io result. -/
def bufSeek (fileLen pos : Nat) : SeekFromM → Option (Nat × Except IoErr Nat)
  | .start n => some (n, .ok n)
  | .current off => bufSeekCurrent pos off
  | .fromEnd off =>
    match bufSeekCurrent fileLen off with
    | none => none
    | some (p, .ok r) => some (p, .ok r)
    | some (_, .error e) => some (pos, .error e)

/-- C8 counterexample: a relative seek from position 5 by -6 underflows and
is reported with the message position (negative) overflow, not the claimed
position overflow; the position is unchanged. -/
theorem c8_underflow_message_counterexample :
    bufSeek 100 5 (.current (-6)) =
      some (5, .error ⟨.other, "position (negative) overflow"⟩) ∧
    "position (negative) overflow" ≠ "position overflow" := by
  constructor
  · rfl
  · decide

/-- C8 amended: an in-range relative seek returns the new position; going
above u64::MAX leaves the position and reports Other with message position
overflow; going below 0 (for any offset other than i64::MIN) leaves the
position and reports Other with message position (negative) overflow; the
offset i64::MIN always panics in checked_abs; Start assigns any position;
End seeks from file_len and restores the original position on error. -/
theorem c8_seek_overflow_behaviour (fileLen pos : Nat) (off : Int) (n : Nat)
    (hpos : pos ≤ U64MAX) :
    (bufSeek fileLen pos (.start n) = some (n, .ok n)) ∧
    (off ≠ I64MIN → (pos : Int) + off < 0 →
      bufSeek fileLen pos (.current off) =
        some (pos, .error ⟨.other, "position (negative) overflow"⟩)) ∧
    ((U64MAX : Int) < (pos : Int) + off →
      bufSeek fileLen pos (.current off) = some (pos, .error ⟨.other, "position overflow"⟩)) ∧
    (off = I64MIN → bufSeek fileLen pos (.current off) = none) ∧
    (off ≠ I64MIN → 0 ≤ (pos : Int) + off → (pos : Int) + off ≤ (U64MAX : Int) →
      bufSeek fileLen pos (.current off) =
        some (((pos : Int) + off).toNat, .ok (((pos : Int) + off).toNat))) ∧
    (∀ p e, bufSeekCurrent fileLen off = some (p, .error e) →
      bufSeek fileLen pos (.fromEnd off) = some (pos, .error e)) ∧
    (∀ p r, bufSeekCurrent fileLen off = some (p, .ok r) →
      bufSeek fileLen pos (.fromEnd off) = some (p, .ok r)) := by
  refine ⟨rfl, ?_, ?_, ?_, ?_, ?_, ?_⟩
  · intro hmin hneg
    have hoff : ¬ (0 ≤ off) := by omega
    simp only [bufSeek, bufSeekCurrent]
    rw [if_neg hoff, if_neg hmin, if_neg (by omega)]
  · intro hover
    have hoff : 0 ≤ off := by unfold U64MAX at *; omega
    simp only [bufSeek, bufSeekCurrent]
    rw [if_pos hoff, if_neg (by omega)]
  · intro hmin
    subst hmin
    simp only [bufSeek, bufSeekCurrent]
    rw [if_neg (show ¬ (0 ≤ I64MIN) by decide), if_pos trivial]
  · intro hmin hlo hhi
    simp only [bufSeek, bufSeekCurrent]
    by_cases hoff : 0 ≤ off
    · rw [show ((pos : Int) + off).toNat = pos + off.toNat by omega]
      rw [if_pos hoff, if_pos (by unfold U64MAX at *; omega)]
    · rw [show ((pos : Int) + off).toNat = pos - off.natAbs by omega]
      rw [if_neg hoff, if_neg hmin, if_pos (by omega)]
  · intro p e h
    simp only [bufSeek]
    rw [h]
  · intro p r h
    simp only [bufSeek]
    rw [h]

/-- Witness for C8 at concrete seeks, one per behaviour arm. -/
theorem c8_seek_overflow_behaviour_witness :
    (bufSeek 10 5 (.start 3) = some (3, .ok 3)) ∧
    (bufSeek 10 5 (.current (-6)) =
      some (5, .error ⟨.other, "position (negative) overflow"⟩)) ∧
    (bufSeek 10 (2 ^ 64 - 1) (.current 1) =
      some (2 ^ 64 - 1, .error ⟨.other, "position overflow"⟩)) ∧
    (bufSeek 10 5 (.current I64MIN) = none) ∧
    (bufSeek 10 5 (.current (-3)) = some (2, .ok 2)) := by
  refine ⟨?_, ?_, ?_, ?_, ?_⟩
  · exact (c8_seek_overflow_behaviour 10 5 0 3 (by decide)).1
  · exact (c8_seek_overflow_behaviour 10 5 (-6) 0 (by decide)).2.1 (by decide) (by decide)
  · exact (c8_seek_overflow_behaviour 10 (2 ^ 64 - 1) 1 0 (by norm_num [U64MAX])).2.2.1
      (by norm_num [U64MAX])
  · exact (c8_seek_overflow_behaviour 10 5 I64MIN 0 (by decide)).2.2.2.1 rfl
  · have h := (c8_seek_overflow_behaviour 10 5 (-3) 0 (by decide)).2.2.2.2.1
      (by decide) (by decide) (by decide)
    simpa using h

/-! ### index/hashlist.rs: TypedListReader

The reader state after the header is the prefix (a full-length key with the
prefix bits set and all other bits zero, of length keySize) and the record
stream.  pfxBits is the prefix length in bits, paySizeFile the payload
size recorded in the header, pSize the payload type size P::SIZE. -/

/-- Result of TypedListReader::next_entry: end of iteration (an EOF while
reading the key suffix returns None), an io error while reading the
payload (Some(Err)), a panic, or a parsed entry with the unread rest of
the stream. -/
inductive HlStep
  | eofEnd
  | ioErr
  | panicked
  | entry (key payload rest : List Nat)
  deriving DecidableEq, Repr

/-- TypedListReader::next_entry: read keySize - pfxBits/8 suffix bytes into
a zeroed key buffer (EOF, also after a partial read, ends the iteration),
reconstitute the full key with Prefix::unsplit, then read the payload
(paySizeFile bytes; EOF or error is returned as an entry error) and keep
its first P::SIZE bytes. -/
def hlNextEntry (keySize pfxBits : Nat) (pfxKey : List Nat) (paySizeFile pSize : Nat)
    (stream : List Nat) : HlStep :=
  let skip := pfxBits / 8
  let need := keySize - skip
  if stream.length < need then .eofEnd
  else
    let keyBuf := List.replicate skip 0 ++ stream.take need
    let rest := stream.drop need
    match dataUnsplit pfxBits pfxKey (suffixOfKey keyBuf pfxBits) with
    | none => .panicked
    | some fullKey =>
      if rest.length < paySizeFile then .ioErr
      else if paySizeFile < pSize then .panicked
      else .entry fullKey ((rest.take paySizeFile).take pSize) (rest.drop paySizeFile)

/-- Result of TypedListReader::lookup. -/
inductive HlLookupRes
  | found (p : List Nat)
  | notFound
  | ioErr
  | panicked
  | fuelOut
  deriving DecidableEq, Repr

/-- The loop of TypedListReader::lookup: compare each full entry key with
the target; continue on Less, return the payload on Equal, stop on Greater
or at the end of the entries. -/
def hlLookupGo (keySize pfxBits : Nat) (pfxKey : List Nat) (paySizeFile pSize : Nat)
    (target : List Nat) : List Nat → Nat → HlLookupRes
  | _, 0 => .fuelOut
  | stream, fuel + 1 =>
    match hlNextEntry keySize pfxBits pfxKey paySizeFile pSize stream with
    | .eofEnd => .notFound
    | .ioErr => .ioErr
    | .panicked => .panicked
    | .entry k p rest =>
      match cmpBytes k target with
      | .lt => hlLookupGo keySize pfxBits pfxKey paySizeFile pSize target rest fuel
      | .eq => .found p
      | .gt => .notFound

/-- TypedListReader::lookup with enough fuel for the whole stream. -/
def hlLookup (keySize pfxBits : Nat) (pfxKey : List Nat) (paySizeFile pSize : Nat)
    (target stream : List Nat) : HlLookupRes :=
  hlLookupGo keySize pfxBits pfxKey paySizeFile pSize target stream (stream.length + 1)

/-- How a hash-list record stream ends when parsed to the end. -/
inductive HlEnd
  | cleanEof
  | ioErr
  | panicked
  | fuelOut
  deriving DecidableEq, Repr

/-- Parse the record stream into the entries in file order together with
its terminator. -/
def hlParseGo (keySize pfxBits : Nat) (pfxKey : List Nat) (paySizeFile pSize : Nat) :
    List Nat → Nat → List (List Nat × List Nat) × HlEnd
  | _, 0 => ([], .fuelOut)
  | stream, fuel + 1 =>
    match hlNextEntry keySize pfxBits pfxKey paySizeFile pSize stream with
    | .eofEnd => ([], .cleanEof)
    | .ioErr => ([], .ioErr)
    | .panicked => ([], .panicked)
    | .entry k p rest =>
      let r := hlParseGo keySize pfxBits pfxKey paySizeFile pSize rest fuel
      ((k, p) :: r.1, r.2)

/-- The parsed entry list of a stream, with enough fuel. -/
def hlParse (keySize pfxBits : Nat) (pfxKey : List Nat) (paySizeFile pSize : Nat)
    (stream : List Nat) : List (List Nat × List Nat) × HlEnd :=
  hlParseGo keySize pfxBits pfxKey paySizeFile pSize stream (stream.length + 1)

/-- Spec-level scan, modelled from the spec words for hash-list lookup:
linear scan while the current entry key is below the target, the payload
on the first equality, None on the first greater key or at EOF; a
terminating error is surfaced when the scan reaches it. -/
def hlScanSpec (target : List Nat) : List (List Nat × List Nat) → HlEnd → HlLookupRes
  | [], e =>
    match e with
    | .cleanEof => .notFound
    | .ioErr => .ioErr
    | .panicked => .panicked
    | .fuelOut => .fuelOut
  | (k, p) :: rest, e =>
    match cmpBytes k target with
    | .lt => hlScanSpec target rest e
    | .eq => .found p
    | .gt => .notFound

theorem hlLookupGo_eq_scan (keySize pfxBits : Nat) (pfxKey : List Nat)
    (paySizeFile pSize : Nat) (target : List Nat) :
    ∀ fuel stream,
      hlLookupGo keySize pfxBits pfxKey paySizeFile pSize target stream fuel =
        hlScanSpec target
          (hlParseGo keySize pfxBits pfxKey paySizeFile pSize stream fuel).1
          (hlParseGo keySize pfxBits pfxKey paySizeFile pSize stream fuel).2 := by
  intro fuel
  induction fuel with
  | zero =>
    intro stream
    rfl
  | succ n ih =>
    intro stream
    simp only [hlLookupGo, hlParseGo]
    cases h : hlNextEntry keySize pfxBits pfxKey paySizeFile pSize stream with
    | eofEnd => rfl
    | ioErr => rfl
    | panicked => rfl
    | entry k p rest =>
      simp only [hlScanSpec]
      cases h2 : cmpBytes k target with
      | lt => exact ih rest
      | eq => rfl
      | gt => rfl

theorem hlNextEntry_entry_len (keySize pfxBits : Nat) (pfxKey : List Nat)
    (paySizeFile pSize : Nat) (stream k p rest : List Nat)
    (hskip : pfxBits / 8 < keySize)
    (h : hlNextEntry keySize pfxBits pfxKey paySizeFile pSize stream = .entry k p rest) :
    rest.length < stream.length := by
  simp only [hlNextEntry] at h
  split at h
  · exact HlStep.noConfusion h
  · rename_i hlen
    split at h
    · exact HlStep.noConfusion h
    · split at h
      · exact HlStep.noConfusion h
      · split at h
        · exact HlStep.noConfusion h
        · injection h with h1 h2 h3
          subst h3
          simp only [List.length_drop]
          omega

theorem hlParseGo_no_fuelOut (keySize pfxBits : Nat) (pfxKey : List Nat)
    (paySizeFile pSize : Nat) (hskip : pfxBits / 8 < keySize) :
    ∀ fuel, ∀ stream : List Nat, stream.length < fuel →
      (hlParseGo keySize pfxBits pfxKey paySizeFile pSize stream fuel).2 ≠ .fuelOut := by
  intro fuel
  induction fuel with
  | zero =>
    intro stream h
    omega
  | succ n ih =>
    intro stream h
    simp only [hlParseGo]
    cases he : hlNextEntry keySize pfxBits pfxKey paySizeFile pSize stream with
    | eofEnd => simp
    | ioErr => simp
    | panicked => simp
    | entry k p rest =>
      have hlt := hlNextEntry_entry_len keySize pfxBits pfxKey paySizeFile pSize
        stream k p rest hskip he
      exact ih rest (by omega)

/-- C7: TypedListReader::lookup equals the spec-level linear scan over the
parsed entries: it scans in file order while the entry key is less than
the target, returns the payload on the first equal key, and None on the
first greater key or when the entries end; with a valid prefix length the
fuel never runs out, so the equation is about the whole stream. -/
theorem c7_hashlist_lookup_scan (keySize pfxBits : Nat) (pfxKey : List Nat)
    (paySizeFile pSize : Nat) (target stream : List Nat) :
    (hlLookup keySize pfxBits pfxKey paySizeFile pSize target stream =
      hlScanSpec target (hlParse keySize pfxBits pfxKey paySizeFile pSize stream).1
        (hlParse keySize pfxBits pfxKey paySizeFile pSize stream).2) ∧
    (pfxBits / 8 < keySize →
      (hlParse keySize pfxBits pfxKey paySizeFile pSize stream).2 ≠ .fuelOut) := by
  constructor
  · exact hlLookupGo_eq_scan keySize pfxBits pfxKey paySizeFile pSize target
      (stream.length + 1) stream
  · intro hskip
    exact hlParseGo_no_fuelOut keySize pfxBits pfxKey paySizeFile pSize hskip
      (stream.length + 1) stream (by omega)

/-- Witness for C7 on a concrete list: one matching entry is found. -/
theorem c7_hashlist_lookup_scan_witness :
    (hlLookup 2 0 [0, 0] 1 1 [1, 2] [1, 2, 7] =
      hlScanSpec [1, 2] (hlParse 2 0 [0, 0] 1 1 [1, 2, 7]).1
        (hlParse 2 0 [0, 0] 1 1 [1, 2, 7]).2) ∧
    (0 / 8 < 2 → (hlParse 2 0 [0, 0] 1 1 [1, 2, 7]).2 ≠ .fuelOut) :=
  ⟨(c7_hashlist_lookup_scan 2 0 [0, 0] 1 1 [1, 2] [1, 2, 7]).1,
    fun _ => (c7_hashlist_lookup_scan 2 0 [0, 0] 1 1 [1, 2] [1, 2, 7]).2 (by decide)⟩

theorem suffixNewFromSuffixRaw_length (pbits : Nat) (raw : List Nat) :
    (suffixNewFromSuffixRaw pbits raw).length = pbits / 8 + raw.length := by
  simp only [suffixNewFromSuffixRaw]
  split <;> simp

theorem hlUnsplit_some (keySize pfxBits : Nat) (pfxKey : List Nat) (stream : List Nat)
    (hskip : pfxBits / 8 < keySize) (hpk : pfxKey.length = keySize)
    (hlen : keySize - pfxBits / 8 ≤ stream.length) :
    ∃ k, dataUnsplit pfxBits pfxKey
      (suffixOfKey (List.replicate (pfxBits / 8) 0 ++ stream.take (keySize - pfxBits / 8))
        pfxBits) = some k := by
  have hdrop : (List.replicate (pfxBits / 8) (0 : Nat) ++
      stream.take (keySize - pfxBits / 8)).drop (pfxBits / 8) =
      stream.take (keySize - pfxBits / 8) := by
    have := drop_append_at_add (List.replicate (pfxBits / 8) (0 : Nat))
      (stream.take (keySize - pfxBits / 8)) (pfxBits / 8) 0 (by simp)
    simpa using this
  rw [suffixOfKey, hdrop]
  rw [dataUnsplit]
  rw [if_pos ?_]
  · exact ⟨_, rfl⟩
  · constructor
    · omega
    · rw [suffixNewFromSuffixRaw_length]
      simp
      omega

theorem hlNextEntry_eval (keySize pfxBits : Nat) (pfxKey : List Nat) (paySizeFile pSize : Nat)
    (stream k : List Nat)
    (hged : ¬ (stream.length < keySize - pfxBits / 8))
    (hk : dataUnsplit pfxBits pfxKey
      (suffixOfKey (List.replicate (pfxBits / 8) 0 ++ stream.take (keySize - pfxBits / 8))
        pfxBits) = some k) :
    hlNextEntry keySize pfxBits pfxKey paySizeFile pSize stream =
      if (stream.drop (keySize - pfxBits / 8)).length < paySizeFile then .ioErr
      else if paySizeFile < pSize then .panicked
      else .entry k (((stream.drop (keySize - pfxBits / 8)).take paySizeFile).take pSize)
        ((stream.drop (keySize - pfxBits / 8)).drop paySizeFile) := by
  simp only [hlNextEntry]
  rw [if_neg hged, hk]

theorem hlScanSpec_all_lt (target : List Nat) :
    ∀ entries : List (List Nat × List Nat),
      (∀ e ∈ entries, cmpBytes e.1 target = .lt) →
      hlScanSpec target entries .cleanEof = .notFound
  | [], _ => rfl
  | (k, p) :: rest, h => by
    simp only [hlScanSpec]
    rw [h (k, p) (by simp)]
    exact hlScanSpec_all_lt target rest (fun e he => h e (by simp [he]))

/-- C10: with a valid header (prefix shorter than the key, payload at least
P::SIZE), next_entry ends the iteration (None) on an EOF anywhere inside
the key suffix, reports an entry error exactly when the stream ends inside
the payload after a complete suffix, and lookup over a stream whose
trailing record is truncated inside its key suffix returns Ok(None) when
no earlier entry decided the search. -/
theorem c10_truncated_record_eof_semantics (keySize pfxBits : Nat) (pfxKey : List Nat)
    (paySizeFile pSize : Nat) (target : List Nat)
    (hskip : pfxBits / 8 < keySize) (hpk : pfxKey.length = keySize)
    (hps : pSize ≤ paySizeFile) :
    (∀ stream : List Nat, stream.length < keySize - pfxBits / 8 →
      hlNextEntry keySize pfxBits pfxKey paySizeFile pSize stream = .eofEnd) ∧
    (∀ stream : List Nat,
      hlNextEntry keySize pfxBits pfxKey paySizeFile pSize stream = .ioErr ↔
        keySize - pfxBits / 8 ≤ stream.length ∧
          stream.length < keySize - pfxBits / 8 + paySizeFile) ∧
    (∀ stream : List Nat,
      (hlParse keySize pfxBits pfxKey paySizeFile pSize stream).2 = .cleanEof →
      (∀ e ∈ (hlParse keySize pfxBits pfxKey paySizeFile pSize stream).1,
        cmpBytes e.1 target = .lt) →
      hlLookup keySize pfxBits pfxKey paySizeFile pSize target stream = .notFound) := by
  refine ⟨?_, ?_, ?_⟩
  · intro stream hlt
    simp only [hlNextEntry]
    rw [if_pos hlt]
  · intro stream
    constructor
    · intro h
      simp only [hlNextEntry] at h
      split at h
      · exact HlStep.noConfusion h
      · rename_i h1
        split at h
        · exact HlStep.noConfusion h
        · split at h
          · rename_i h2
            simp only [List.length_drop] at h2
            exact ⟨by omega, by omega⟩
          · split at h
            · exact HlStep.noConfusion h
            · exact HlStep.noConfusion h
    · rintro ⟨hge, hlt⟩
      obtain ⟨k, hk⟩ := hlUnsplit_some keySize pfxBits pfxKey stream hskip hpk hge
      rw [hlNextEntry_eval keySize pfxBits pfxKey paySizeFile pSize stream k (by omega) hk]
      rw [if_pos (by simp; omega)]
  · intro stream hclean hall
    have heq := hlLookupGo_eq_scan keySize pfxBits pfxKey paySizeFile pSize target
      (stream.length + 1) stream
    rw [hlLookup, heq]
    rw [hlParse] at hclean hall
    rw [hclean]
    exact hlScanSpec_all_lt target _ hall

/-- Witness for C10: a 2-byte key list with no prefix and 1-byte payload;
a 1-byte stream ends inside the suffix (end of iteration), a 2-byte stream
ends inside the payload (entry error), and a stream holding one complete
record below the target plus a truncated suffix gives a clean not-found. -/
theorem c10_truncated_record_eof_semantics_witness :
    hlNextEntry 2 0 [0, 0] 1 1 [5] = .eofEnd ∧
    (hlNextEntry 2 0 [0, 0] 1 1 [1, 2] = .ioErr ↔
      2 - 0 / 8 ≤ 2 ∧ 2 < 2 - 0 / 8 + 1) ∧
    hlLookup 2 0 [0, 0] 1 1 [9, 9] [1, 2, 7, 0] = .notFound := by
  refine ⟨?_, ?_, ?_⟩
  · exact (c10_truncated_record_eof_semantics 2 0 [0, 0] 1 1 [9, 9]
      (by decide) (by decide) (by decide)).1 [5] (by decide)
  · exact (c10_truncated_record_eof_semantics 2 0 [0, 0] 1 1 [9, 9]
      (by decide) (by decide) (by decide)).2.1 [1, 2]
  · exact (c10_truncated_record_eof_semantics 2 0 [0, 0] 1 1 [9, 9]
      (by decide) (by decide) (by decide)).2.2 [1, 2, 7, 0] (by decide) (by decide)
